import Mathlib

/-!
Verification of the expense-split service (src/services.py, src/models.py).

Money amounts are embedded as exact rationals (`ℚ`); Python's `round(x, 2)`
is embedded as exact round-half-to-even at two decimal places; Python dicts
are embedded as association lists in insertion order; Python's `set` of payers
is embedded as first-occurrence deduplication (none of the proved properties
depend on the iteration order); the unbounded `while` loop of
`calculate_settlements` is embedded as a fuel-indexed recursion together with
a completion flag.  The loop's comparisons against the literal `0.01` are
exact here, while the source compares binary doubles; the embedding is
faithful for everything proved below (emissions, counts, accounting), but
questions that hinge on whether a remainder equals `0.01` exactly are
floating-point questions this model does not settle.
-/

namespace ExpenseSplit

/-- An expense record as stored by `ExpenseService` (src/services.py
`add_expense`): id, amount, description, payer.  The `created_at` /
`updated_at` timestamps play no role in any computation verified here and
are omitted. -/
structure Expense where
  id : Nat
  amount : ℚ
  description : String
  paid_by : String
deriving DecidableEq

/-- Rounding of a rational to the nearest integer, ties to even
(the rounding performed by Python's builtin `round`). -/
def roundHalfEven (x : ℚ) : ℤ :=
  if x - (⌊x⌋ : ℚ) < 1/2 then ⌊x⌋
  else if 1/2 < x - (⌊x⌋ : ℚ) then ⌊x⌋ + 1
  else if ⌊x⌋ % 2 = 0 then ⌊x⌋ else ⌊x⌋ + 1

/-- Python's `round(x, 2)` as used in src/services.py, exactly. -/
def round2 (x : ℚ) : ℚ := (roundHalfEven (x * 100) : ℚ) / 100

/-- Association-list lookup, the read of a Python dict. -/
def lookupQ : List (String × ℚ) → String → Option ℚ
  | [], _ => none
  | (q, v) :: t, p => if q = p then some v else lookupQ t p

/-- Reads `dict.get(p, d)` on an association list. -/
def lookupD (l : List (String × ℚ)) (p : String) (d : ℚ) : ℚ :=
  (lookupQ l p).getD d

/-- Performs `d[p] = d.get(p, 0) + a` on an association list kept in
insertion order, as in the `paid_by_person` accumulation of
`_calculate_individual_balances`. -/
def addEntry : List (String × ℚ) → String → ℚ → List (String × ℚ)
  | [], p, a => [(p, a)]
  | (q, v) :: t, p, a =>
      if q = p then (q, v + a) :: t else (q, v) :: addEntry t p a

/-- First-occurrence deduplication of a list of names. -/
def dedupFirst : List String → List String
  | [] => []
  | p :: t => p :: (dedupFirst t).filter (fun q => q ≠ p)

/-- Embeds `set(expense["paid_by"] for expense in self.expenses)` from
`_calculate_individual_balances` (src/services.py line 115); the Python set's
iteration order is unspecified, and is embedded here as first-occurrence
order — no property proved below depends on that choice. -/
def uniquePeople (es : List Expense) : List String :=
  dedupFirst (es.map (·.paid_by))

/-- Embeds `sum(expense["amount"] for expense in self.expenses)`
(src/services.py line 114). -/
def totalAmount (es : List Expense) : ℚ :=
  (es.map (·.amount)).sum

/-- The `paid_by_person` dict of `_calculate_individual_balances`
(src/services.py lines 124-127). -/
def paidAcc (es : List Expense) : List (String × ℚ) :=
  es.foldl (fun acc e => addEntry acc e.paid_by e.amount) []

/-- Modelled from the claim text of C1: `paid[p]`, the sum of amounts of
expenses whose payer is `p`. -/
def paidBy (es : List Expense) (p : String) : ℚ :=
  ((es.filter (fun e => e.paid_by = p)).map (·.amount)).sum

/-- Embeds `_calculate_individual_balances` (src/services.py lines 108-136). -/
def calculateIndividualBalances (es : List Expense) : List (String × ℚ) :=
  if es.isEmpty then []
  else
    let total := totalAmount es
    let people := uniquePeople es
    let n := people.length
    if n = 0 then []
    else
      let share := total / (n : ℚ)
      let paid := paidAcc es
      people.map (fun p => (p, round2 (lookupD paid p 0 - share)))

/-- Response shape of `calculate_balances` (src/models.py `BalanceResponse`). -/
structure BalanceResponse where
  person : String
  balance : ℚ
  status : String
deriving DecidableEq

/-- Response shape of `calculate_settlements` (src/models.py
`SettlementResponse`). -/
structure SettlementResponse where
  from_person : String
  to_person : String
  amount : ℚ
deriving DecidableEq

/-- Response shape of `get_all_people` (src/models.py `PersonResponse`). -/
structure PersonResponse where
  name : String
  total_paid : ℚ
  total_expenses : Nat
  balance : ℚ
deriving DecidableEq

/-- Lexicographic comparison of code-point lists (Python's string order). -/
def charListLe : List Char → List Char → Bool
  | [], _ => true
  | _ :: _, [] => false
  | x :: xs, y :: ys =>
      if x.val < y.val then true
      else if y.val < x.val then false
      else charListLe xs ys

/-- Compares `a <= b` on strings by code points, as Python compares names
in `sorted(..., key=...)`. -/
def strLe (a b : String) : Bool := charListLe a.data b.data

/-- Stable insertion of `x` into `l`: `x` goes in front of the first element
`y` with `le x y`. -/
def insertLe (le : α → α → Bool) (x : α) : List α → List α
  | [] => [x]
  | y :: ys => if le x y then x :: y :: ys else y :: insertLe le x ys

/-- Stable insertion sort; the embedding of Python's stable `sorted` /
`list.sort`. -/
def insertionSort (le : α → α → Bool) : List α → List α
  | [] => []
  | x :: xs => insertLe le x (insertionSort le xs)

/-- Embeds `calculate_balances` (src/services.py lines 138-157): absolute balance
plus a status tag, sorted by person name. -/
def calculateBalances (es : List Expense) : List BalanceResponse :=
  insertionSort (fun a b => strLe a.person b.person)
    ((calculateIndividualBalances es).map (fun pv =>
      { person := pv.1
        balance := |pv.2|
        status :=
          if (1 : ℚ)/100 < pv.2 then "gets"
          else if pv.2 < -((1 : ℚ)/100) then "owes"
          else "even" }))

/-- The `debtors` list of `calculate_settlements` (src/services.py lines
170-172): participants with balance `< -0.01`, with the magnitude
`abs(balance)`. -/
def debtorsOf (es : List Expense) : List (String × ℚ) :=
  ((calculateIndividualBalances es).filter (fun pv => pv.2 < -(1/100))).map
    (fun pv => (pv.1, |pv.2|))

/-- The `creditors` list of `calculate_settlements` (src/services.py lines
173-174): participants with balance `> 0.01`. -/
def creditorsOf (es : List Expense) : List (String × ℚ) :=
  (calculateIndividualBalances es).filter (fun pv => 1/100 < pv.2)

/-- Embeds `x.sort(key=lambda x: x["amount"], reverse=True)`: stable
descending sort by amount. -/
def sortDescAmount (l : List (String × ℚ)) : List (String × ℚ) :=
  insertionSort (fun a b => decide (b.2 ≤ a.2)) l

/-- The two-cursor greedy `while` loop of `calculate_settlements`
(src/services.py lines 183-206).  Cursor advance is embedded as dropping the
head of the corresponding list; the source loop is unbounded, so the
recursion is indexed by fuel and returns `false` as its second component when
the fuel runs out before a cursor exhausts its list.  An iteration that
neither emits nor advances (possible in this exact-rational model only when
a remaining amount equals `1/100` exactly) leaves the state unchanged, so
larger fuel never helps past such a state. -/
def settleLoopAux : Nat → List (String × ℚ) → List (String × ℚ) →
    List SettlementResponse → List SettlementResponse × Bool
  | _, [], _, acc => (acc.reverse, true)
  | _, _ :: _, [], acc => (acc.reverse, true)
  | 0, _ :: _, _ :: _, acc => (acc.reverse, false)
  | Nat.succ fuel, d :: ds, c :: cs, acc =>
      let amt := min d.2 c.2
      if 1/100 < amt then
        settleLoopAux fuel
          (if d.2 - amt < 1/100 then ds else (d.1, d.2 - amt) :: ds)
          (if c.2 - amt < 1/100 then cs else (c.1, c.2 - amt) :: cs)
          (⟨d.1, c.1, round2 amt⟩ :: acc)
      else
        settleLoopAux fuel
          (if d.2 < 1/100 then ds else d :: ds)
          (if c.2 < 1/100 then cs else c :: cs)
          acc

/-- Embeds `calculate_settlements` (src/services.py lines 159-208).  The fuel
`|debtors| + |creditors| + 1` is enough for any completing run, because
every iteration either advances a cursor or repeats the same state; a
`false` second component means the exact-rational model reached a state
with a remainder equal to `1/100` exactly, where it neither emits nor
advances.  Whether the source's binary-double arithmetic can reach such a
state is a floating-point question outside this embedding. -/
def calculateSettlements (es : List Expense) : List SettlementResponse × Bool :=
  let balances := calculateIndividualBalances es
  if balances.isEmpty then ([], true)
  else
    let debtors := sortDescAmount (debtorsOf es)
    let creditors := sortDescAmount (creditorsOf es)
    settleLoopAux (debtors.length + creditors.length + 1) debtors creditors []

/-- One step of the `people_data` accumulation of `get_all_people`
(src/services.py lines 83-92): `total_paid += amount`,
`total_expenses += 1`, dict in insertion order. -/
def addPerson : List (String × ℚ × Nat) → String → ℚ → List (String × ℚ × Nat)
  | [], p, a => [(p, a, 1)]
  | (q, v, k) :: t, p, a =>
      if q = p then (q, v + a, k + 1) :: t else (q, v, k) :: addPerson t p a

/-- The `people_data` dict of `get_all_people`. -/
def peopleData (es : List Expense) : List (String × ℚ × Nat) :=
  es.foldl (fun acc e => addPerson acc e.paid_by e.amount) []

/-- Embeds `get_all_people` (src/services.py lines 79-106): per-person totals with
the signed balance (`balances.get(person, 0)`), sorted by name. -/
def getAllPeople (es : List Expense) : List PersonResponse :=
  insertionSort (fun a b => strLe a.name b.name)
    ((peopleData es).map (fun t =>
      { name := t.1
        total_paid := t.2.1
        total_expenses := t.2.2
        balance := lookupD (calculateIndividualBalances es) t.1 0 }))

/-- Payload of a create request (src/models.py `ExpenseCreate`); validation
happens at the pydantic boundary and is out of scope here. -/
structure ExpenseCreate where
  amount : ℚ
  description : String
  paid_by : String
deriving DecidableEq

/-- Payload of an update request (src/models.py `ExpenseUpdate`): every
field optional. -/
structure ExpenseUpdate where
  amount : Option ℚ
  description : Option String
  paid_by : Option String
deriving DecidableEq

/-- The mutable state of `ExpenseService`: the expense list and the
`next_id` counter. -/
structure Store where
  expenses : List Expense
  next_id : Nat
deriving DecidableEq

/-- Embeds `add_expense` (src/services.py lines 30-45): appends a record carrying
`next_id` and increments the counter. -/
def addExpense (s : Store) (e : ExpenseCreate) : Expense × Store :=
  let newExpense : Expense := ⟨s.next_id, e.amount, e.description, e.paid_by⟩
  (newExpense, ⟨s.expenses ++ [newExpense], s.next_id + 1⟩)

/-- Embeds `get_expense_by_id` (src/services.py lines 51-56): first record with the
given id, `none` embedding the `KeyError`. -/
def getExpenseById (s : Store) (i : Nat) : Option Expense :=
  s.expenses.find? (fun e => e.id == i)

/-- Replace the first record with the given id (the in-place mutation of the
found dict in `update_expense`). -/
def replaceById : List Expense → Nat → Expense → List Expense
  | [], _, _ => []
  | x :: xs, i, e' => if x.id = i then e' :: xs else x :: replaceById xs i e'

/-- Embeds `update_expense` (src/services.py lines 58-72).  The pair's second
component is the store after the call, also when the call raises: the
lookup precedes every mutation, so a raising call returns the store
untouched. -/
def updateExpense (s : Store) (i : Nat) (u : ExpenseUpdate) :
    Except String Expense × Store :=
  match getExpenseById s i with
  | none => (Except.error (s!"Expense with ID {i} not found"), s)
  | some e =>
      let e' : Expense :=
        ⟨e.id, u.amount.getD e.amount, u.description.getD e.description,
          u.paid_by.getD e.paid_by⟩
      (Except.ok e', ⟨replaceById s.expenses i e', s.next_id⟩)

/-- Embeds `delete_expense` (src/services.py lines 74-77): looks up by id, then
`list.remove` deletes the first equal record. -/
def deleteExpense (s : Store) (i : Nat) : Except String Unit × Store :=
  match getExpenseById s i with
  | none => (Except.error (s!"Expense with ID {i} not found"), s)
  | some e => (Except.ok (), ⟨s.expenses.erase e, s.next_id⟩)

/-- An operation on the store, for stating id invariants over operation
sequences. -/
inductive StoreOp where
  | add (e : ExpenseCreate)
  | del (i : Nat)
deriving DecidableEq

/-- Apply one operation.  A `del` of a missing id raises in the source; the
raise happens before any mutation, so the store is unchanged either way. -/
def applyOp (s : Store) : StoreOp → Store
  | .add e => (addExpense s e).2
  | .del i => (deleteExpense s i).2

/-- Run a sequence of operations. -/
def runOps (s : Store) (ops : List StoreOp) : Store :=
  ops.foldl applyOp s

/-- The ids assigned by the `add` operations of the sequence, in order. -/
def assignedIds (s : Store) : List StoreOp → List Nat
  | [] => []
  | .add e :: ops => s.next_id :: assignedIds (applyOp s (.add e)) ops
  | .del i :: ops => assignedIds (applyOp s (.del i)) ops

/-- The ids successfully deleted by the sequence, in order. -/
def deletedIds (s : Store) : List StoreOp → List Nat
  | [] => []
  | .add e :: ops => deletedIds (applyOp s (.add e)) ops
  | .del i :: ops =>
      (if (getExpenseById s i).isSome then [i] else []) ++
        deletedIds (applyOp s (.del i)) ops

/-- A rational that is an integer number of hundredths; every balance the
reducer emits is of this form. -/
def IsCent (x : ℚ) : Prop := ∃ k : ℤ, x = (k : ℚ) / 100

/-- Total amount paid out by `p` across a settlement list. -/
def fromSum (l : List SettlementResponse) (p : String) : ℚ :=
  ((l.filter (fun s => s.from_person = p)).map (fun s => s.amount)).sum

/-- Total amount received by `p` across a settlement list. -/
def toSum (l : List SettlementResponse) (p : String) : ℚ :=
  ((l.filter (fun s => s.to_person = p)).map (fun s => s.amount)).sum

/-- Sum of the amounts of the entries named `p`. -/
def valsOf (l : List (String × ℚ)) (p : String) : ℚ :=
  ((l.filter (fun x => x.1 = p)).map Prod.snd).sum

/-- Sum of all amounts of a debtor/creditor list. -/
def sumVals (l : List (String × ℚ)) : ℚ :=
  (l.map Prod.snd).sum

/-- The net balance of `p` adjusted by a settlement list: `p` paying a
settlement raises `p`'s net by its amount, `p` receiving one lowers it. -/
def adjustedNet (v : ℚ) (l : List SettlementResponse) (p : String) : ℚ :=
  v + fromSum l p - toSum l p

/-- Invariant of the running debtor/creditor lists: every remaining amount
is a whole number of cents and at least one cent. -/
def GoodAmounts (l : List (String × ℚ)) : Prop :=
  ∀ x ∈ l, IsCent x.2 ∧ 1/100 ≤ x.2

/-- Scenario A of the spec: the five pre-populated test expenses. -/
def scenarioA : List Expense :=
  [⟨1, 600, "Dinner", "Shantanu"⟩, ⟨2, 450, "Groceries", "Sanket"⟩,
   ⟨3, 300, "Petrol", "Om"⟩, ⟨4, 500, "Movie Tickets", "Shantanu"⟩,
   ⟨5, 280, "Pizza", "Sanket"⟩]

/-- A single-expense snapshot (Scenario B of the spec). -/
def singleSnap : List Expense := [⟨1, 600, "Dinner", "A"⟩]

/-- A snapshot on which the rounded net balances sum to `0.03`: six payers
of `0.10` and one payer of `0.13`; the per-person share is `73/700`, so the
six small nets `-3/700` all round to `0` while the seventh net `18/700`
rounds to `0.03`. -/
def driftSnap : List Expense :=
  [⟨1, 10/100, "x", "A"⟩, ⟨2, 10/100, "x", "B"⟩, ⟨3, 10/100, "x", "C"⟩,
   ⟨4, 10/100, "x", "D"⟩, ⟨5, 10/100, "x", "E"⟩, ⟨6, 10/100, "x", "F"⟩,
   ⟨7, 13/100, "x", "G"⟩]

/-! ### Basic lemmas about the embedded containers -/

theorem mem_dedupFirst : ∀ (l : List String) (p : String),
    p ∈ dedupFirst l ↔ p ∈ l := by
  intro l
  induction l with
  | nil => simp [dedupFirst]
  | cons q t ih =>
      intro p
      by_cases h : p = q <;>
        simp [dedupFirst, List.mem_filter, ih, h]

theorem nodup_dedupFirst : ∀ l : List String, (dedupFirst l).Nodup := by
  intro l
  induction l with
  | nil => simp [dedupFirst]
  | cons q t ih =>
      refine List.Nodup.cons ?_ (ih.filter _)
      intro hq
      rcases List.mem_filter.1 hq with ⟨-, hne⟩
      simp at hne

theorem insertLe_perm (le : α → α → Bool) (x : α) :
    ∀ l : List α, List.Perm (insertLe le x l) (x :: l) := by
  intro l
  induction l with
  | nil => simp [insertLe]
  | cons y ys ih =>
      by_cases h : le x y
      · simp [insertLe, h]
      · simp only [insertLe, h, if_neg, Bool.false_eq_true, not_false_iff]
        exact (ih.cons y).trans (List.Perm.swap x y ys)

theorem insertionSort_perm (le : α → α → Bool) :
    ∀ l : List α, List.Perm (insertionSort le l) l := by
  intro l
  induction l with
  | nil => simp [insertionSort]
  | cons x xs ih =>
      exact (insertLe_perm le x (insertionSort le xs)).trans (ih.cons x)

theorem lookupD_cons (q : String) (v : ℚ) (t : List (String × ℚ))
    (p : String) (d : ℚ) :
    lookupD ((q, v) :: t) p d = if q = p then v else lookupD t p d := by
  by_cases h : q = p <;> simp [lookupD, lookupQ, h]

theorem lookupD_addEntry (l : List (String × ℚ)) (q : String) (a : ℚ)
    (p : String) :
    lookupD (addEntry l q a) p 0 = lookupD l p 0 + (if q = p then a else 0) := by
  induction l with
  | nil => by_cases h : q = p <;> simp [addEntry, lookupD, lookupQ, h]
  | cons x t ih =>
      obtain ⟨r, v⟩ := x
      by_cases hr : r = q
      · subst hr
        by_cases h : r = p <;> simp [addEntry, lookupD_cons, h]
      · by_cases h : r = p
        · subst h
          simp [addEntry, hr, lookupD_cons, Ne.symm hr]
        · simp [addEntry, hr, lookupD_cons, h, ih]

theorem paidBy_cons (e : Expense) (t : List Expense) (p : String) :
    paidBy (e :: t) p = (if e.paid_by = p then e.amount else 0) + paidBy t p := by
  by_cases h : e.paid_by = p <;> simp [paidBy, List.filter_cons, h]

theorem lookupD_paid_foldl (es : List Expense) :
    ∀ (acc : List (String × ℚ)) (p : String),
      lookupD (es.foldl (fun acc e => addEntry acc e.paid_by e.amount) acc) p 0 =
        lookupD acc p 0 + paidBy es p := by
  induction es with
  | nil => intro acc p; simp [paidBy]
  | cons e t ih =>
      intro acc p
      simp only [List.foldl_cons]
      rw [ih, lookupD_addEntry, paidBy_cons]
      ring

theorem paidAcc_lookupD (es : List Expense) (p : String) :
    lookupD (paidAcc es) p 0 = paidBy es p := by
  have h := lookupD_paid_foldl es [] p
  simpa [paidAcc, lookupD, lookupQ] using h

theorem mem_uniquePeople (es : List Expense) (p : String) :
    p ∈ uniquePeople es ↔ ∃ e ∈ es, e.paid_by = p := by
  simp [uniquePeople, mem_dedupFirst]

theorem nodup_uniquePeople (es : List Expense) : (uniquePeople es).Nodup :=
  nodup_dedupFirst _

theorem uniquePeople_ne_nil (es : List Expense) (h : es ≠ []) :
    uniquePeople es ≠ [] := by
  match es with
  | [] => exact absurd rfl h
  | e :: t => simp [uniquePeople, dedupFirst]

/-! ### Characterisation of the balance reducer -/

theorem cib_eq_map (es : List Expense) (h : es ≠ []) :
    calculateIndividualBalances es =
      (uniquePeople es).map (fun p =>
        (p, round2 (paidBy es p -
          totalAmount es / ((uniquePeople es).length : ℚ)))) := by
  have hne : ¬ es.isEmpty := by simp [List.isEmpty_iff, h]
  have hlen : ¬ (uniquePeople es).length = 0 := by
    simpa [List.length_eq_zero] using uniquePeople_ne_nil es h
  simp only [calculateIndividualBalances, hne, hlen, if_false, Bool.false_eq_true]
  exact List.map_congr_left fun p _ => by rw [paidAcc_lookupD]

theorem cib_keys (es : List Expense) :
    (calculateIndividualBalances es).map Prod.fst = uniquePeople es := by
  by_cases h : es = []
  · subst h; simp [calculateIndividualBalances, uniquePeople, dedupFirst]
  · rw [cib_eq_map es h, List.map_map]
    exact List.map_id _

theorem nodup_cib_keys (es : List Expense) :
    ((calculateIndividualBalances es).map Prod.fst).Nodup := by
  rw [cib_keys]; exact nodup_uniquePeople es

theorem lookupQ_map_of_mem (f : String → ℚ) :
    ∀ (l : List String) (p : String), p ∈ l →
      lookupQ (l.map (fun q => (q, f q))) p = some (f p) := by
  intro l
  induction l with
  | nil => intro p h; simp at h
  | cons q t ih =>
      intro p hp
      by_cases h : q = p
      · subst h; simp [lookupQ]
      · have : p ∈ t := by
          rcases List.mem_cons.1 hp with h' | h'
          · exact absurd h'.symm h
          · exact h'
        simp [lookupQ, h, ih p this]

theorem lookupQ_mem : ∀ (l : List (String × ℚ)) (p : String) (v : ℚ),
    lookupQ l p = some v → (p, v) ∈ l := by
  intro l
  induction l with
  | nil => intro p v h; simp [lookupQ] at h
  | cons x t ih =>
      intro p v h
      obtain ⟨q, w⟩ := x
      by_cases hq : q = p
      · subst hq
        simp [lookupQ] at h
        simp [h]
      · simp only [lookupQ, hq, if_false] at h
        exact List.mem_cons_of_mem _ (ih p v h)

theorem cib_lookup (es : List Expense) (p : String)
    (h : p ∈ uniquePeople es) :
    lookupQ (calculateIndividualBalances es) p =
      some (round2 (paidBy es p -
        totalAmount es / ((uniquePeople es).length : ℚ))) := by
  have hne : es ≠ [] := by
    rintro rfl
    simp [uniquePeople, dedupFirst] at h
  rw [cib_eq_map es hne]
  exact lookupQ_map_of_mem _ (uniquePeople es) p h

/-! ### C1: the balance reducer computes `round(paid[p] - total/n, 2)` -/

/-- C1: for every list of expenses the reducer
`_calculate_individual_balances` returns an empty mapping when the list is
empty, its keys are exactly the distinct payers, and for every distinct
payer `p` it returns `round(paid[p] - total/n, 2)` with
`total = sum of all amounts`, `n = number of distinct payers` and
`paid[p] = sum of amounts of expenses whose payer is p`. -/
theorem reducer_meets_spec (es : List Expense) :
    (es = [] → calculateIndividualBalances es = []) ∧
    ((calculateIndividualBalances es).map Prod.fst = uniquePeople es) ∧
    (∀ p, p ∈ uniquePeople es →
      lookupQ (calculateIndividualBalances es) p =
        some (round2 (paidBy es p -
          totalAmount es / ((uniquePeople es).length : ℚ)))) := by
  refine ⟨?_, cib_keys es, fun p hp => cib_lookup es p hp⟩
  rintro rfl
  simp [calculateIndividualBalances]

/-- Witness for `reducer_meets_spec` at Scenario A and payer `"Om"`. -/
theorem reducer_meets_spec_witness :
    lookupQ (calculateIndividualBalances scenarioA) "Om" =
      some (round2 (paidBy scenarioA "Om" -
        totalAmount scenarioA / ((uniquePeople scenarioA).length : ℚ))) :=
  (reducer_meets_spec scenarioA).2.2 "Om" (by decide)

/-! ### C8: a non-empty snapshot has at least one distinct payer -/

/-- C8: for every non-empty expense list the number of distinct payers is at
least `1`, so the division `total / num_people` never divides by zero and
the `num_people == 0` guard branch of `_calculate_individual_balances` is
unreachable. -/
theorem participants_pos (es : List Expense) (h : es ≠ []) :
    0 < (uniquePeople es).length ∧ ((uniquePeople es).length : ℚ) ≠ 0 := by
  have hne := uniquePeople_ne_nil es h
  have hpos : 0 < (uniquePeople es).length := List.length_pos.2 hne
  exact ⟨hpos, by exact_mod_cast Nat.pos_iff_ne_zero.1 hpos⟩

/-- Witness for `participants_pos` at the single-expense snapshot. -/
theorem participants_pos_witness :
    0 < (uniquePeople singleSnap).length ∧
      ((uniquePeople singleSnap).length : ℚ) ≠ 0 :=
  participants_pos singleSnap (by decide)

/-! ### Rounding error bounds and cent-valued rationals -/

theorem roundHalfEven_err (x : ℚ) :
    |((roundHalfEven x : ℤ) : ℚ) - x| ≤ 1/2 := by
  have h0 : (⌊x⌋ : ℚ) ≤ x := Int.floor_le x
  have h1 : x < (⌊x⌋ : ℚ) + 1 := Int.lt_floor_add_one x
  unfold roundHalfEven
  split_ifs with h h' h'' <;> push_cast <;> rw [abs_le] <;> constructor <;>
    linarith

theorem round2_err (x : ℚ) : |round2 x - x| ≤ 1/200 := by
  have h := roundHalfEven_err (x * 100)
  have heq : round2 x - x = (((roundHalfEven (x * 100) : ℤ) : ℚ) - x * 100) / 100 := by
    unfold round2; ring
  rw [heq, abs_div]
  have habs : |(100 : ℚ)| = 100 := by norm_num
  rw [habs]
  linarith

theorem isCent_round2 (x : ℚ) : IsCent (round2 x) :=
  ⟨roundHalfEven (x * 100), rfl⟩

theorem roundHalfEven_intCast (k : ℤ) : roundHalfEven (k : ℚ) = k := by
  unfold roundHalfEven
  rw [Int.floor_intCast]
  have : (k : ℚ) - (k : ℚ) = 0 := by ring
  rw [this]
  norm_num

theorem round2_isCent_eq {x : ℚ} (h : IsCent x) : round2 x = x := by
  obtain ⟨k, rfl⟩ := h
  have h100 : ((k : ℚ) / 100) * 100 = (k : ℚ) := by ring
  unfold round2
  rw [h100, roundHalfEven_intCast]

theorem IsCent.sub {x y : ℚ} (hx : IsCent x) (hy : IsCent y) :
    IsCent (x - y) := by
  obtain ⟨a, rfl⟩ := hx
  obtain ⟨b, rfl⟩ := hy
  exact ⟨a - b, by push_cast; ring⟩

theorem IsCent.abs {x : ℚ} (hx : IsCent x) : IsCent |x| := by
  obtain ⟨a, rfl⟩ := hx
  rcases abs_choice ((a : ℚ) / 100) with h | h <;> rw [h]
  · exact ⟨a, rfl⟩
  · exact ⟨-a, by push_cast; ring⟩

theorem IsCent.min {x y : ℚ} (hx : IsCent x) (hy : IsCent y) :
    IsCent (min x y) := by
  rcases min_choice x y with h | h <;> rw [h] <;> assumption

theorem IsCent.eq_zero_of_lt {x : ℚ} (hx : IsCent x) (h0 : 0 ≤ x)
    (h1 : x < 1/100) : x = 0 := by
  obtain ⟨k, rfl⟩ := hx
  have hk0 : (0 : ℚ) ≤ (k : ℚ) := by
    by_contra hneg
    push_neg at hneg
    have : (k : ℚ) / 100 < 0 := by linarith [div_neg_of_neg_of_pos hneg (by norm_num : (0:ℚ) < 100)]
    linarith
  have hk1 : (k : ℚ) < 1 := by
    by_contra hge
    push_neg at hge
    have : (1 : ℚ)/100 ≤ (k : ℚ) / 100 := by linarith
    linarith
  have : k = 0 := by
    have h0' : (0 : ℤ) ≤ k := by exact_mod_cast hk0
    have h1' : k < 1 := by exact_mod_cast hk1
    omega
  subst this
  norm_num

/-! ### List sum lemmas -/

theorem sum_map_add_q (l : List α) (f g : α → ℚ) :
    (l.map (fun a => f a + g a)).sum = (l.map f).sum + (l.map g).sum := by
  induction l with
  | nil => simp
  | cons x t ih => simp [ih]; ring

theorem sum_map_const_q (l : List α) (c : ℚ) :
    (l.map (fun _ => c)).sum = (l.length : ℚ) * c := by
  induction l with
  | nil => simp
  | cons x t ih => simp [ih]; ring

theorem sum_map_ite_eq_q (q : String) (a : ℚ) :
    ∀ l : List String, l.Nodup → q ∈ l →
      (l.map (fun p => if q = p then a else 0)).sum = a := by
  intro l
  induction l with
  | nil => intro _ h; simp at h
  | cons x t ih =>
      intro hnd hq
      rcases List.mem_cons.1 hq with h | h
      · subst h
        have hx : q ∉ t := (List.nodup_cons.1 hnd).1
        have : (t.map (fun p => if q = p then a else 0)).sum = 0 := by
          rw [List.sum_eq_zero]
          intro y hy
          rcases List.mem_map.1 hy with ⟨p, hp, rfl⟩
          have : q ≠ p := fun hqp => hx (hqp ▸ hp)
          simp [this]
        simp [this]
      · have hx : x ≠ q := by
          intro hxq
          exact (List.nodup_cons.1 hnd).1 (hxq ▸ h)
        rw [List.map_cons, List.sum_cons, ih (List.nodup_cons.1 hnd).2 h]
        simp [Ne.symm hx]

theorem sum_map_paidBy (es : List Expense) :
    ∀ l : List String, l.Nodup → (∀ e ∈ es, e.paid_by ∈ l) →
      (l.map (fun p => paidBy es p)).sum = totalAmount es := by
  induction es with
  | nil =>
      intro l _ _
      simp [paidBy, totalAmount]
  | cons e t ih =>
      intro l hnd hcov
      have hcont : (l.map (fun p => paidBy (e :: t) p)) =
          l.map (fun p => (if e.paid_by = p then e.amount else 0) + paidBy t p) :=
        List.map_congr_left fun p _ => paidBy_cons e t p
      rw [hcont, sum_map_add_q, sum_map_ite_eq_q e.paid_by e.amount l hnd
        (hcov e (List.mem_cons_self e t)),
        ih l hnd (fun e' he' => hcov e' (List.mem_cons_of_mem e he'))]
      simp [totalAmount]

theorem abs_sum_le_q : ∀ (l : List ℚ) (c : ℚ), (∀ x ∈ l, |x| ≤ c) →
    |l.sum| ≤ (l.length : ℚ) * c := by
  intro l
  induction l with
  | nil => intro c _; simp
  | cons x t ih =>
      intro c hc
      have hx : |x| ≤ c := hc x (List.mem_cons_self x t)
      have ht : |t.sum| ≤ (t.length : ℚ) * c :=
        ih c fun y hy => hc y (List.mem_cons_of_mem x hy)
      have htri : |x + t.sum| ≤ |x| + |t.sum| := abs_add x t.sum
      simp only [List.sum_cons, List.length_cons]
      push_cast
      calc |x + t.sum| ≤ |x| + |t.sum| := htri
    _ ≤ c + (t.length : ℚ) * c := by linarith
    _ = ((t.length : ℚ) + 1) * c := by ring

/-! ### C2: the zero-sum property and its correct bound -/

unseal Rat.mul Rat.inv Rat.add Rat.sub in
/-- C2 counterexample: on `driftSnap` (six payers of `0.10`, one of `0.13`)
the rounded net balances sum to `0.03`, which is not within the claimed
rounding tolerance `0.01`. -/
theorem zero_sum_cex :
    ¬ |((calculateIndividualBalances driftSnap).map Prod.snd).sum| ≤
        (1 : ℚ)/100 := by decide

/-- C2 (amended): for every expense snapshot the sum of the net balances
produced by the reducer is zero to within the accumulated rounding
tolerance `0.005 · n`, where `n` is the number of distinct payers (each of
the `n` emitted balances is rounded to 2 decimals, contributing up to half a
cent of drift; the unrounded nets sum to exactly zero). -/
theorem zero_sum_within (es : List Expense) :
    |((calculateIndividualBalances es).map Prod.snd).sum| ≤
      ((uniquePeople es).length : ℚ) * (1/200) := by
  by_cases hes : es = []
  · subst hes
    simp [calculateIndividualBalances, uniquePeople, dedupFirst]
  · have hn : ((uniquePeople es).length : ℚ) ≠ 0 := (participants_pos es hes).2
    rw [cib_eq_map es hes, List.map_map]
    set l := uniquePeople es with hl
    set share := totalAmount es / ((uniquePeople es).length : ℚ) with hshare
    have hsplit : (l.map (Prod.snd ∘ fun p =>
        (p, round2 (paidBy es p - share)))) =
        l.map (fun p => (paidBy es p - share) +
          (round2 (paidBy es p - share) - (paidBy es p - share))) :=
      List.map_congr_left fun p _ => by simp
    rw [hsplit, sum_map_add_q]
    have hsub : (l.map (fun p => paidBy es p - share)) =
        l.map (fun p => paidBy es p + (-share)) :=
      List.map_congr_left fun p _ => by ring
    have hzero : (l.map (fun p => paidBy es p - share)).sum = 0 := by
      rw [hsub, sum_map_add_q, sum_map_paidBy es l (nodup_uniquePeople es)
        (fun e he => (mem_uniquePeople es e.paid_by).2 ⟨e, he, rfl⟩),
        sum_map_const_q]
      rw [hshare]
      field_simp
      rw [← hl]
      ring
    rw [hzero, zero_add]
    have hbound : ∀ x ∈ l.map (fun p =>
        round2 (paidBy es p - share) - (paidBy es p - share)), |x| ≤ 1/200 := by
      intro x hx
      rcases List.mem_map.1 hx with ⟨p, _, rfl⟩
      exact round2_err _
    have := abs_sum_le_q _ (1/200) hbound
    simpa using this

/-! ### Settlement accounting: small lemmas -/

theorem fromSum_cons (s : SettlementResponse) (l : List SettlementResponse)
    (p : String) :
    fromSum (s :: l) p =
      (if s.from_person = p then s.amount else 0) + fromSum l p := by
  by_cases h : s.from_person = p <;> simp [fromSum, List.filter_cons, h]

theorem toSum_cons (s : SettlementResponse) (l : List SettlementResponse)
    (p : String) :
    toSum (s :: l) p =
      (if s.to_person = p then s.amount else 0) + toSum l p := by
  by_cases h : s.to_person = p <;> simp [toSum, List.filter_cons, h]

theorem fromSum_reverse (l : List SettlementResponse) (p : String) :
    fromSum l.reverse p = fromSum l p := by
  simp [fromSum, List.filter_reverse, List.map_reverse, List.sum_reverse]

theorem toSum_reverse (l : List SettlementResponse) (p : String) :
    toSum l.reverse p = toSum l p := by
  simp [toSum, List.filter_reverse, List.map_reverse, List.sum_reverse]

theorem valsOf_cons (x : String × ℚ) (t : List (String × ℚ)) (p : String) :
    valsOf (x :: t) p = (if x.1 = p then x.2 else 0) + valsOf t p := by
  by_cases h : x.1 = p <;> simp [valsOf, List.filter_cons, h]

theorem sumVals_cons (x : String × ℚ) (t : List (String × ℚ)) :
    sumVals (x :: t) = x.2 + sumVals t := by
  simp [sumVals]

theorem sumVals_nonneg {l : List (String × ℚ)} (h : GoodAmounts l) :
    0 ≤ sumVals l := by
  induction l with
  | nil => simp [sumVals]
  | cons x t ih =>
      have hx := h x (List.mem_cons_self x t)
      have ht : GoodAmounts t := fun y hy => h y (List.mem_cons_of_mem x hy)
      have := ih ht
      rw [sumVals_cons]
      linarith [hx.2]

theorem eq_nil_of_sumVals_zero {l : List (String × ℚ)}
    (h : GoodAmounts l) (h0 : sumVals l = 0) : l = [] := by
  cases l with
  | nil => rfl
  | cons x t =>
      exfalso
      have hx := h x (List.mem_cons_self x t)
      have ht : GoodAmounts t := fun y hy => h y (List.mem_cons_of_mem x hy)
      have hts := sumVals_nonneg ht
      rw [sumVals_cons] at h0
      linarith [hx.2]

theorem goodAmounts_perm {l l' : List (String × ℚ)}
    (hp : List.Perm l l') (h : GoodAmounts l) : GoodAmounts l' :=
  fun x hx => h x (hp.mem_iff.2 hx)

theorem sumVals_perm {l l' : List (String × ℚ)} (hp : List.Perm l l') :
    sumVals l = sumVals l' :=
  (hp.map Prod.snd).sum_eq

theorem valsOf_perm {l l' : List (String × ℚ)} (hp : List.Perm l l')
    (p : String) : valsOf l p = valsOf l' p :=
  ((hp.filter _).map Prod.snd).sum_eq

/-! ### Unique keys and the debtor/creditor lists -/

theorem mem_lookupQ : ∀ (l : List (String × ℚ)) (p : String) (v : ℚ),
    (l.map Prod.fst).Nodup → (p, v) ∈ l → lookupQ l p = some v := by
  intro l
  induction l with
  | nil => intro p v _ h; simp at h
  | cons x t ih =>
      intro p v hnd hm
      obtain ⟨q, w⟩ := x
      rcases List.mem_cons.1 hm with h | h
      · injection h with h1 h2
        subst h1
        subst h2
        simp [lookupQ]
      · have hq : q ≠ p := by
          intro hqp
          subst hqp
          have : q ∈ t.map Prod.fst := List.mem_map.2 ⟨(q, v), h, rfl⟩
          exact (List.nodup_cons.1 hnd).1 this
        simp only [lookupQ, hq, if_false]
        exact ih p v (List.nodup_cons.1 hnd).2 h

theorem filter_keys_nil (t : List (String × ℚ)) (p : String)
    (h : p ∉ t.map Prod.fst) : t.filter (fun x => x.1 = p) = [] := by
  rw [List.filter_eq_nil_iff]
  intro x hx hxp
  exact h (List.mem_map.2 ⟨x, hx, by simpa using hxp⟩)

theorem filter_keys_eq : ∀ (l : List (String × ℚ)) (p : String) (v : ℚ),
    (l.map Prod.fst).Nodup → (p, v) ∈ l →
    l.filter (fun x => x.1 = p) = [(p, v)] := by
  intro l
  induction l with
  | nil => intro p v _ h; simp at h
  | cons x t ih =>
      intro p v hnd hm
      rcases List.mem_cons.1 hm with h | h
      · subst h
        have hnotin : p ∉ t.map Prod.fst := (List.nodup_cons.1 hnd).1
        simp [List.filter_cons, filter_keys_nil t p hnotin]
      · have hx : x.1 ≠ p := by
          intro hxp
          have : x.1 ∈ t.map Prod.fst := hxp ▸ List.mem_map.2 ⟨(p, v), h, rfl⟩
          exact (List.nodup_cons.1 hnd).1 (hxp ▸ this)
        simp [List.filter_cons, hx, ih p v (List.nodup_cons.1 hnd).2 h]

theorem cib_isCent (es : List Expense) :
    ∀ pv ∈ calculateIndividualBalances es, IsCent pv.2 := by
  intro pv hpv
  by_cases h : es = []
  · subst h; simp [calculateIndividualBalances] at hpv
  · rw [cib_eq_map es h] at hpv
    rcases List.mem_map.1 hpv with ⟨p, _, rfl⟩
    exact isCent_round2 _

theorem goodAmounts_debtorsOf (es : List Expense) :
    GoodAmounts (debtorsOf es) := by
  intro x hx
  rcases List.mem_map.1 hx with ⟨pv, hpv, rfl⟩
  rcases List.mem_filter.1 hpv with ⟨hmem, hlt⟩
  have hlt' : pv.2 < -(1/100) := by simpa using hlt
  have hcent := cib_isCent es pv hmem
  refine ⟨hcent.abs, ?_⟩
  have : |pv.2| = -pv.2 := abs_of_neg (by linarith)
  rw [this]
  linarith

theorem goodAmounts_creditorsOf (es : List Expense) :
    GoodAmounts (creditorsOf es) := by
  intro x hx
  rcases List.mem_filter.1 hx with ⟨hmem, hgt⟩
  have hgt' : 1/100 < x.2 := by simpa using hgt
  exact ⟨cib_isCent es x hmem, le_of_lt hgt'⟩

theorem valsOf_debtorsOf (es : List Expense) (p : String) (v : ℚ)
    (hv : (p, v) ∈ calculateIndividualBalances es) :
    valsOf (debtorsOf es) p = if v < -(1/100) then |v| else 0 := by
  have hnd := nodup_cib_keys es
  unfold valsOf debtorsOf
  rw [List.filter_map]
  have hcomp :
      ((fun x : String × ℚ => decide (x.1 = p)) ∘
        fun pv : String × ℚ => (pv.1, |pv.2|)) =
      fun pv : String × ℚ => decide (pv.1 = p) := rfl
  rw [hcomp, List.filter_comm, filter_keys_eq _ p v hnd hv]
  split_ifs with h
  · have h' : v < -100⁻¹ := by linarith
    simp [List.filter_cons, h']
  · have h' : ¬ v < -100⁻¹ := fun hc => h (by linarith)
    simp [List.filter_cons, h']

theorem valsOf_creditorsOf (es : List Expense) (p : String) (v : ℚ)
    (hv : (p, v) ∈ calculateIndividualBalances es) :
    valsOf (creditorsOf es) p = if 1/100 < v then v else 0 := by
  have hnd := nodup_cib_keys es
  unfold valsOf creditorsOf
  rw [List.filter_comm, filter_keys_eq _ p v hnd hv]
  split_ifs with h
  · have h' : 100⁻¹ < v := by linarith
    simp [List.filter_cons, h']
  · have h' : ¬ (100⁻¹ : ℚ) < v := fun hc => h (by linarith)
    simp [List.filter_cons, h']

/-! ### Unfolding equations of the settlement loop -/

theorem settleLoopAux_nil_left (fuel : Nat) (cs : List (String × ℚ))
    (acc : List SettlementResponse) :
    settleLoopAux fuel [] cs acc = (acc.reverse, true) := by
  cases fuel <;> rfl

theorem settleLoopAux_nil_right (fuel : Nat) (d : String × ℚ)
    (ds : List (String × ℚ)) (acc : List SettlementResponse) :
    settleLoopAux fuel (d :: ds) [] acc = (acc.reverse, true) := by
  cases fuel <;> rfl

theorem settleLoopAux_zero_cons (d c : String × ℚ)
    (ds cs : List (String × ℚ)) (acc : List SettlementResponse) :
    settleLoopAux 0 (d :: ds) (c :: cs) acc = (acc.reverse, false) := rfl

theorem settleLoopAux_succ_cons (n : Nat) (d c : String × ℚ)
    (ds cs : List (String × ℚ)) (acc : List SettlementResponse) :
    settleLoopAux (n+1) (d :: ds) (c :: cs) acc =
      (if 1/100 < min d.2 c.2 then
        settleLoopAux n
          (if d.2 - min d.2 c.2 < 1/100 then ds
            else (d.1, d.2 - min d.2 c.2) :: ds)
          (if c.2 - min d.2 c.2 < 1/100 then cs
            else (c.1, c.2 - min d.2 c.2) :: cs)
          (⟨d.1, c.1, round2 (min d.2 c.2)⟩ :: acc)
      else
        settleLoopAux n (if d.2 < 1/100 then ds else d :: ds)
          (if c.2 < 1/100 then cs else c :: cs) acc) := rfl

/-! ### The advance step of the settlement loop -/

theorem advance_side (x : String × ℚ) (t : List (String × ℚ)) (amt : ℚ)
    (hg : GoodAmounts (x :: t)) (hcent : IsCent amt) (hle : amt ≤ x.2) :
    GoodAmounts (if x.2 - amt < 1/100 then t else (x.1, x.2 - amt) :: t) ∧
    sumVals (if x.2 - amt < 1/100 then t else (x.1, x.2 - amt) :: t) =
      sumVals (x :: t) - amt ∧
    ∀ p, valsOf (if x.2 - amt < 1/100 then t else (x.1, x.2 - amt) :: t) p =
      valsOf (x :: t) p - (if x.1 = p then amt else 0) := by
  have hx := hg x (List.mem_cons_self x t)
  have ht : GoodAmounts t := fun y hy => hg y (List.mem_cons_of_mem x hy)
  by_cases hdrop : x.2 - amt < 1/100
  · have hzero : x.2 - amt = 0 :=
      (hx.1.sub hcent).eq_zero_of_lt (by linarith) hdrop
    simp only [if_pos hdrop]
    refine ⟨ht, ?_, ?_⟩
    · rw [sumVals_cons]; linarith
    · intro p
      rw [valsOf_cons]
      by_cases hp : x.1 = p <;> [(simp [hp]; linarith); simp [hp]]
  · simp only [if_neg hdrop]
    refine ⟨?_, ?_, ?_⟩
    · intro y hy
      rcases List.mem_cons.1 hy with rfl | hy'
      · exact ⟨hx.1.sub hcent, le_of_not_lt hdrop⟩
      · exact ht y hy'
    · rw [sumVals_cons, sumVals_cons]; ring
    · intro p
      rw [valsOf_cons, valsOf_cons]
      by_cases hp : x.1 = p <;> simp [hp] <;> ring

/-! ### Per-participant accounting of a completed settlement run -/

/-- When the loop completes (flag `true`) on cent-valued lists whose two
sides have equal totals, every name is fully settled: the amounts emitted
from each debtor name add up to that name's listed total, and likewise for
each creditor name. -/
theorem settleLoop_accounting :
    ∀ (fuel : Nat) (ds cs : List (String × ℚ))
      (acc res : List SettlementResponse),
      GoodAmounts ds → GoodAmounts cs → sumVals ds = sumVals cs →
      settleLoopAux fuel ds cs acc = (res, true) →
      (∀ p, fromSum res p = fromSum acc p + valsOf ds p) ∧
      (∀ p, toSum res p = toSum acc p + valsOf cs p) := by
  intro fuel
  induction fuel with
  | zero =>
      intro ds cs acc res hgd hgc hsum hrun
      match ds, cs with
      | [], cs =>
          rw [settleLoopAux_nil_left] at hrun
          have hres : acc.reverse = res := congrArg Prod.fst hrun
          have hcs : cs = [] :=
            eq_nil_of_sumVals_zero hgc (by simpa [sumVals] using hsum.symm)
          subst hcs
          refine ⟨fun p => ?_, fun p => ?_⟩ <;>
            simp [← hres, fromSum_reverse, toSum_reverse, valsOf]
      | d :: ds', [] =>
          exfalso
          have h0 : sumVals (d :: ds') = 0 := by simpa [sumVals] using hsum
          have := eq_nil_of_sumVals_zero hgd h0
          exact List.cons_ne_nil d ds' this
      | d :: ds', c :: cs' =>
          exfalso
          rw [settleLoopAux_zero_cons] at hrun
          have : (false : Bool) = true := congrArg Prod.snd hrun
          simp at this
  | succ n ih =>
      intro ds cs acc res hgd hgc hsum hrun
      match ds, cs with
      | [], cs =>
          rw [settleLoopAux_nil_left] at hrun
          have hres : acc.reverse = res := congrArg Prod.fst hrun
          have hcs : cs = [] :=
            eq_nil_of_sumVals_zero hgc (by simpa [sumVals] using hsum.symm)
          subst hcs
          refine ⟨fun p => ?_, fun p => ?_⟩ <;>
            simp [← hres, fromSum_reverse, toSum_reverse, valsOf]
      | d :: ds', [] =>
          exfalso
          have h0 : sumVals (d :: ds') = 0 := by simpa [sumVals] using hsum
          have := eq_nil_of_sumVals_zero hgd h0
          exact List.cons_ne_nil d ds' this
      | d :: ds', c :: cs' =>
          rw [settleLoopAux_succ_cons] at hrun
          have hd := hgd d (List.mem_cons_self d ds')
          have hc := hgc c (List.mem_cons_self c cs')
          by_cases hamt : 1/100 < min d.2 c.2
          · rw [if_pos hamt] at hrun
            have hcentamt : IsCent (min d.2 c.2) := hd.1.min hc.1
            have hAd := advance_side d ds' (min d.2 c.2) hgd hcentamt
              (min_le_left _ _)
            have hAc := advance_side c cs' (min d.2 c.2) hgc hcentamt
              (min_le_right _ _)
            have hsum' : sumVals (if d.2 - min d.2 c.2 < 1/100 then ds'
                  else (d.1, d.2 - min d.2 c.2) :: ds') =
                sumVals (if c.2 - min d.2 c.2 < 1/100 then cs'
                  else (c.1, c.2 - min d.2 c.2) :: cs') := by
              rw [hAd.2.1, hAc.2.1, hsum]
            obtain ⟨h1, h2⟩ := ih _ _ _ _ hAd.1 hAc.1 hsum' hrun
            have hround : round2 (min d.2 c.2) = min d.2 c.2 :=
              round2_isCent_eq hcentamt
            constructor
            · intro p
              rw [h1 p, fromSum_cons, hAd.2.2 p, valsOf_cons]
              by_cases hp : d.1 = p <;> [(simp [hp, hround]; ring); simp [hp, hround]]
            · intro p
              rw [h2 p, toSum_cons, hAc.2.2 p, valsOf_cons]
              by_cases hp : c.1 = p <;> [(simp [hp, hround]; ring); simp [hp, hround]]
          · rw [if_neg hamt, if_neg (not_lt.2 hd.2), if_neg (not_lt.2 hc.2)]
              at hrun
            exact ih _ _ _ _ hgd hgc hsum hrun

/-! ### Emission count of the settlement loop -/

theorem length_if_le (cond : Prop) [Decidable cond]
    (t : List (String × ℚ)) (x : String × ℚ) :
    (if cond then t else x :: t).length ≤ t.length + 1 := by
  split_ifs <;> simp

/-- Every run of the loop emits at least one settlement fewer than the
total number of debtor and creditor entries, unless it emits nothing at
all. -/
theorem settleLoop_length :
    ∀ (fuel : Nat) (ds cs : List (String × ℚ))
      (acc : List SettlementResponse),
      (settleLoopAux fuel ds cs acc).1.length + 1 ≤
          acc.length + ds.length + cs.length ∨
        (settleLoopAux fuel ds cs acc).1.length = acc.length := by
  intro fuel
  induction fuel with
  | zero =>
      intro ds cs acc
      match ds, cs with
      | [], cs => right; rw [settleLoopAux_nil_left]; simp
      | d :: ds', [] => right; rw [settleLoopAux_nil_right]; simp
      | d :: ds', c :: cs' => right; rw [settleLoopAux_zero_cons]; simp
  | succ n ih =>
      intro ds cs acc
      match ds, cs with
      | [], cs => right; rw [settleLoopAux_nil_left]; simp
      | d :: ds', [] => right; rw [settleLoopAux_nil_right]; simp
      | d :: ds', c :: cs' =>
          rw [settleLoopAux_succ_cons]
          by_cases hamt : 1/100 < min d.2 c.2
          · rw [if_pos hamt]
            rcases min_choice d.2 c.2 with hmin | hmin
            · have hdl : (if d.2 - min d.2 c.2 < 1/100 then ds'
                  else (d.1, d.2 - min d.2 c.2) :: ds') = ds' := by
                rw [← hmin]
                simp
              rw [hdl]
              have hcl := length_if_le (c.2 - min d.2 c.2 < 1/100) cs'
                (c.1, c.2 - min d.2 c.2)
              rcases ih ds'
                (if c.2 - min d.2 c.2 < 1/100 then cs'
                  else (c.1, c.2 - min d.2 c.2) :: cs')
                (⟨d.1, c.1, round2 (min d.2 c.2)⟩ :: acc)
                with h | h
              · left
                simp only [List.length_cons] at h ⊢
                omega
              · left
                simp only [List.length_cons] at h ⊢
                omega
            · have hcl : (if c.2 - min d.2 c.2 < 1/100 then cs'
                  else (c.1, c.2 - min d.2 c.2) :: cs') = cs' := by
                rw [← hmin]
                simp
              rw [hcl]
              have hdl := length_if_le (d.2 - min d.2 c.2 < 1/100) ds'
                (d.1, d.2 - min d.2 c.2)
              rcases ih
                (if d.2 - min d.2 c.2 < 1/100 then ds'
                  else (d.1, d.2 - min d.2 c.2) :: ds')
                cs' (⟨d.1, c.1, round2 (min d.2 c.2)⟩ :: acc)
                with h | h
              · left
                simp only [List.length_cons] at h ⊢
                omega
              · left
                simp only [List.length_cons] at h ⊢
                omega
          · rw [if_neg hamt]
            have hdl := length_if_le (d.2 < 1/100) ds' d
            have hcl := length_if_le (c.2 < 1/100) cs' c
            rcases ih (if d.2 < 1/100 then ds' else d :: ds')
              (if c.2 < 1/100 then cs' else c :: cs') acc with h | h
            · left
              simp only [List.length_cons] at h ⊢
              omega
            · right
              exact h

/-! ### Names referenced by emitted settlements -/

theorem mem_keys_if {cond : Prop} [Decidable cond]
    {t : List (String × ℚ)} {x : String × ℚ} {p : String}
    (h : p ∈ (if cond then t else x :: t).map Prod.fst) :
    p = x.1 ∨ p ∈ t.map Prod.fst := by
  split_ifs at h with hc
  · exact Or.inr h
  · rcases List.mem_map.1 h with ⟨y, hy, rfl⟩
    rcases List.mem_cons.1 hy with rfl | hy'
    · exact Or.inl rfl
    · exact Or.inr (List.mem_map.2 ⟨y, hy', rfl⟩)

/-- Every settlement the loop emits names a listed debtor as payer and a
listed creditor as payee. -/
theorem settleLoop_names :
    ∀ (fuel : Nat) (ds cs : List (String × ℚ))
      (acc : List SettlementResponse),
      ∀ s ∈ (settleLoopAux fuel ds cs acc).1,
        s ∈ acc ∨ (s.from_person ∈ ds.map Prod.fst ∧
          s.to_person ∈ cs.map Prod.fst) := by
  intro fuel
  induction fuel with
  | zero =>
      intro ds cs acc s hs
      left
      match ds, cs with
      | [], cs =>
          rw [settleLoopAux_nil_left] at hs
          exact List.mem_reverse.1 hs
      | d :: ds', [] =>
          rw [settleLoopAux_nil_right] at hs
          exact List.mem_reverse.1 hs
      | d :: ds', c :: cs' =>
          rw [settleLoopAux_zero_cons] at hs
          exact List.mem_reverse.1 hs
  | succ n ih =>
      intro ds cs acc s hs
      match ds, cs with
      | [], cs =>
          rw [settleLoopAux_nil_left] at hs
          exact Or.inl (List.mem_reverse.1 hs)
      | d :: ds', [] =>
          rw [settleLoopAux_nil_right] at hs
          exact Or.inl (List.mem_reverse.1 hs)
      | d :: ds', c :: cs' =>
          rw [settleLoopAux_succ_cons] at hs
          by_cases hamt : 1/100 < min d.2 c.2
          · rw [if_pos hamt] at hs
            rcases ih _ _ _ s hs with h | ⟨h1, h2⟩
            · rcases List.mem_cons.1 h with rfl | h'
              · refine Or.inr ⟨?_, ?_⟩ <;> simp
              · exact Or.inl h'
            · refine Or.inr ⟨?_, ?_⟩
              · rcases mem_keys_if h1 with h' | h' <;>
                  simp [List.mem_map] at h' ⊢
                · exact Or.inl h'
                · rcases h' with ⟨w, hw⟩
                  exact Or.inr ⟨w, hw⟩
              · rcases mem_keys_if h2 with h' | h' <;>
                  simp [List.mem_map] at h' ⊢
                · exact Or.inl h'
                · rcases h' with ⟨w, hw⟩
                  exact Or.inr ⟨w, hw⟩
          · rw [if_neg hamt] at hs
            rcases ih _ _ _ s hs with h | ⟨h1, h2⟩
            · exact Or.inl h
            · refine Or.inr ⟨?_, ?_⟩
              · rcases mem_keys_if h1 with h' | h' <;>
                  simp [List.mem_map] at h' ⊢
                · exact Or.inl h'
                · rcases h' with ⟨w, hw⟩
                  exact Or.inr ⟨w, hw⟩
              · rcases mem_keys_if h2 with h' | h' <;>
                  simp [List.mem_map] at h' ⊢
                · exact Or.inl h'
                · rcases h' with ⟨w, hw⟩
                  exact Or.inr ⟨w, hw⟩

/-! ### Shape of `calculateSettlements` -/

theorem calcSett_empty (es : List Expense)
    (hb : (calculateIndividualBalances es).isEmpty = true) :
    calculateSettlements es = ([], true) := by
  simp only [calculateSettlements]
  rw [if_pos hb]

theorem calcSett_eq (es : List Expense)
    (hb : ¬ (calculateIndividualBalances es).isEmpty = true) :
    calculateSettlements es =
      settleLoopAux
        ((sortDescAmount (debtorsOf es)).length +
          (sortDescAmount (creditorsOf es)).length + 1)
        (sortDescAmount (debtorsOf es)) (sortDescAmount (creditorsOf es))
        [] := by
  simp only [calculateSettlements]
  rw [if_neg hb]

/-! ### C3: settlement closure -/

unseal Rat.mul Rat.inv Rat.add Rat.sub in
/-- C3 counterexample: on `driftSnap` the matcher completes and emits no
settlement at all, yet participant `"G"` holds net balance `0.03`; applying
the emitted settlements in the claim's stated direction (subtract each
amount from the payer's net, add it to the payee's net — here a no-op)
leaves `"G"` at `0.03`, outside the tolerance `0.01`. -/
theorem settlement_closure_cex :
    lookupQ (calculateIndividualBalances driftSnap) "G" = some (3/100) ∧
    (calculateSettlements driftSnap).1 = [] ∧
    (calculateSettlements driftSnap).2 = true ∧
    ¬ |(3 : ℚ)/100 - fromSum (calculateSettlements driftSnap).1 "G" +
        toSum (calculateSettlements driftSnap).1 "G"| ≤ 1/100 := by
  refine ⟨by decide, by decide, by decide, by decide⟩

/-- C3 (amended): whenever the reducer's debtor and creditor magnitudes
balance exactly and the greedy loop terminates, applying every emitted
settlement — adding its amount to the payer's net and subtracting it from
the payee's net, the direction that models a payment — drives every
participant's adjusted balance to within `0.01` of zero.  (The drift
hypothesis is necessary: `settlement_closure_cex` shows a snapshot where the
rounded balances do not cancel and no settlement can close them; the
direction is forced the same way, a payment raises the payer's net.) -/
theorem settlement_closure (es : List Expense)
    (hsum : sumVals (debtorsOf es) = sumVals (creditorsOf es))
    (hdone : (calculateSettlements es).2 = true)
    (p : String) (v : ℚ)
    (hv : lookupQ (calculateIndividualBalances es) p = some v) :
    |adjustedNet v (calculateSettlements es).1 p| ≤ 1/100 := by
  have hmem : (p, v) ∈ calculateIndividualBalances es := lookupQ_mem _ p v hv
  by_cases hb : (calculateIndividualBalances es).isEmpty = true
  · rw [List.isEmpty_iff] at hb
    rw [hb] at hmem
    simp at hmem
  · have hcs := calcSett_eq es hb
    have hpD : List.Perm (sortDescAmount (debtorsOf es)) (debtorsOf es) :=
      insertionSort_perm _ _
    have hpC : List.Perm (sortDescAmount (creditorsOf es)) (creditorsOf es) :=
      insertionSort_perm _ _
    have hrun : settleLoopAux
        ((sortDescAmount (debtorsOf es)).length +
          (sortDescAmount (creditorsOf es)).length + 1)
        (sortDescAmount (debtorsOf es)) (sortDescAmount (creditorsOf es)) [] =
        ((calculateSettlements es).1, true) := by
      rw [← hcs, ← hdone]
    have hgD : GoodAmounts (sortDescAmount (debtorsOf es)) :=
      goodAmounts_perm hpD.symm (goodAmounts_debtorsOf es)
    have hgC : GoodAmounts (sortDescAmount (creditorsOf es)) :=
      goodAmounts_perm hpC.symm (goodAmounts_creditorsOf es)
    have hsums : sumVals (sortDescAmount (debtorsOf es)) =
        sumVals (sortDescAmount (creditorsOf es)) := by
      rw [sumVals_perm hpD, sumVals_perm hpC, hsum]
    obtain ⟨h1, h2⟩ := settleLoop_accounting _ _ _ _ _ hgD hgC hsums hrun
    have hfrom : fromSum (calculateSettlements es).1 p =
        valsOf (debtorsOf es) p := by
      rw [h1 p, valsOf_perm hpD p]
      simp [fromSum]
    have hto : toSum (calculateSettlements es).1 p =
        valsOf (creditorsOf es) p := by
      rw [h2 p, valsOf_perm hpC p]
      simp [toSum]
    rw [adjustedNet, hfrom, hto, valsOf_debtorsOf es p v hmem,
      valsOf_creditorsOf es p v hmem]
    by_cases hneg : v < -(1/100)
    · rw [if_pos hneg, if_neg (by linarith : ¬ (1:ℚ)/100 < v),
        abs_of_neg (by linarith : v < 0)]
      norm_num
    · by_cases hpos : (1:ℚ)/100 < v
      · rw [if_neg hneg, if_pos hpos]
        norm_num
      · rw [if_neg hneg, if_neg hpos]
        rw [show v + 0 - 0 = v by ring]
        rw [abs_le]
        constructor <;> linarith

unseal Rat.mul Rat.inv Rat.add Rat.sub in
/-- Witness for `settlement_closure` at Scenario A and participant `"Om"`:
Om's net is `-410`, the two emitted settlements repay exactly `410`. -/
theorem settlement_closure_witness :
    |adjustedNet (-410) (calculateSettlements scenarioA).1 "Om"| ≤ 1/100 :=
  settlement_closure scenarioA (by decide) (by decide) "Om" (-410) (by decide)

/-! ### C6: even-band participants are excluded -/

/-- C6: a participant whose net balance lies in the even band
`|net| ≤ 0.01` appears in no emitted settlement, neither as payer nor as
payee, and carries status `"even"` in the balances output. -/
theorem even_band_excluded (es : List Expense) (p : String) (v : ℚ)
    (hv : lookupQ (calculateIndividualBalances es) p = some v)
    (hband : |v| ≤ 1/100) :
    (∀ s ∈ (calculateSettlements es).1,
      s.from_person ≠ p ∧ s.to_person ≠ p) ∧
    (∀ b ∈ calculateBalances es, b.person = p → b.status = "even") := by
  have hmem : (p, v) ∈ calculateIndividualBalances es := lookupQ_mem _ p v hv
  have hnd := nodup_cib_keys es
  have hle := abs_le.1 hband
  have hnotneg : ¬ v < -(1/100) := by linarith [hle.1]
  have hnotpos : ¬ (1:ℚ)/100 < v := by linarith [hle.2]
  constructor
  · intro s hs
    by_cases hb : (calculateIndividualBalances es).isEmpty = true
    · rw [calcSett_empty es hb] at hs
      simp at hs
    · rw [calcSett_eq es hb] at hs
      rcases settleLoop_names _ _ _ _ s hs with h | ⟨h1, h2⟩
      · simp at h
      · have hpD : List.Perm (sortDescAmount (debtorsOf es)) (debtorsOf es) :=
          insertionSort_perm _ _
        have hpC : List.Perm (sortDescAmount (creditorsOf es))
            (creditorsOf es) := insertionSort_perm _ _
        constructor
        · intro hfp
          rw [hfp] at h1
          have h1' : p ∈ (debtorsOf es).map Prod.fst :=
            (hpD.map Prod.fst).mem_iff.1 h1
          rcases List.mem_map.1 h1' with ⟨x, hx, hx1⟩
          rcases List.mem_map.1 hx with ⟨pv, hpv, rfl⟩
          rcases List.mem_filter.1 hpv with ⟨hmem', hlt⟩
          have hlt' : pv.2 < -(1/100) := by simpa using hlt
          have hpv1 : pv.1 = p := hx1
          have hkey : lookupQ (calculateIndividualBalances es) p =
              some pv.2 := by
            rw [← hpv1]
            exact mem_lookupQ _ pv.1 pv.2 hnd (by simpa using hmem')
          rw [hv] at hkey
          injection hkey with hkey
          rw [← hkey] at hlt'
          exact hnotneg hlt'
        · intro htp
          rw [htp] at h2
          have h2' : p ∈ (creditorsOf es).map Prod.fst :=
            (hpC.map Prod.fst).mem_iff.1 h2
          rcases List.mem_map.1 h2' with ⟨pv, hpv, hpv1⟩
          rcases List.mem_filter.1 hpv with ⟨hmem', hgt⟩
          have hgt' : (1:ℚ)/100 < pv.2 := by simpa using hgt
          have hkey : lookupQ (calculateIndividualBalances es) p =
              some pv.2 := by
            rw [← hpv1]
            exact mem_lookupQ _ pv.1 pv.2 hnd (by simpa using hmem')
          rw [hv] at hkey
          injection hkey with hkey
          rw [← hkey] at hgt'
          exact hnotpos hgt'
  · intro b hb hbp
    have hb' : b ∈ (calculateIndividualBalances es).map (fun pv =>
        ({ person := pv.1
           balance := |pv.2|
           status :=
             if (1 : ℚ)/100 < pv.2 then "gets"
             else if pv.2 < -((1 : ℚ)/100) then "owes"
             else "even" } : BalanceResponse)) :=
      (insertionSort_perm _ _).mem_iff.1 hb
    rcases List.mem_map.1 hb' with ⟨pv, hpv, rfl⟩
    have hpv1 : pv.1 = p := hbp
    have hkey : lookupQ (calculateIndividualBalances es) p = some pv.2 := by
      rw [← hpv1]
      exact mem_lookupQ _ pv.1 pv.2 hnd (by simpa using hpv)
    rw [hv] at hkey
    injection hkey with hkey
    show (if (1 : ℚ)/100 < pv.2 then "gets"
      else if pv.2 < -((1 : ℚ)/100) then "owes" else "even") = "even"
    rw [← hkey, if_neg hnotpos, if_neg hnotneg]

unseal Rat.mul Rat.inv Rat.add Rat.sub in
/-- Witness for `even_band_excluded` at the single-expense snapshot, whose
unique participant has net `0`. -/
theorem even_band_excluded_witness :
    (∀ s ∈ (calculateSettlements singleSnap).1,
      s.from_person ≠ "A" ∧ s.to_person ≠ "A") ∧
    (∀ b ∈ calculateBalances singleSnap,
      b.person = "A" → b.status = "even") :=
  even_band_excluded singleSnap "A" 0 (by decide) (by decide)

/-! ### C5: emission count bound -/

unseal Rat.mul Rat.inv Rat.add Rat.sub in
/-- C5 counterexample: on the single-expense snapshot the even band absorbs
the only participant, so there are no debtors and no creditors, and the
claimed bound `|debtors| + |creditors| - 1` is `-1` while zero settlements
are emitted — zero is not at most `-1`. -/
theorem settlement_count_cex :
    ¬ (((calculateSettlements singleSnap).1.length : ℤ) ≤
        ((debtorsOf singleSnap).length : ℤ) +
          ((creditorsOf singleSnap).length : ℤ) - 1) := by decide

/-- C5 (amended): for every expense snapshot the number of emitted
settlements is at most `max (|debtors| + |creditors| - 1) 0`, where the
debtors are the participants with net `< -0.01` and the creditors those
with net `> 0.01`; the `max` with `0` is needed exactly when both sides
are empty (`settlement_count_cex`). -/
theorem settlement_count_bound (es : List Expense) :
    ((calculateSettlements es).1.length : ℤ) ≤
      max (((debtorsOf es).length : ℤ) +
        ((creditorsOf es).length : ℤ) - 1) 0 := by
  by_cases hb : (calculateIndividualBalances es).isEmpty = true
  · rw [calcSett_empty es hb]
    simp only [List.length_nil, Nat.cast_zero]
    exact le_max_right
      (((debtorsOf es).length : ℤ) + ((creditorsOf es).length : ℤ) - 1)
      (0 : ℤ)
  · rw [calcSett_eq es hb]
    have hlD : (sortDescAmount (debtorsOf es)).length =
        (debtorsOf es).length := (insertionSort_perm _ _).length_eq
    have hlC : (sortDescAmount (creditorsOf es)).length =
        (creditorsOf es).length := (insertionSort_perm _ _).length_eq
    rcases settleLoop_length
        ((sortDescAmount (debtorsOf es)).length +
          (sortDescAmount (creditorsOf es)).length + 1)
        (sortDescAmount (debtorsOf es)) (sortDescAmount (creditorsOf es)) []
      with h | h
    · refine le_trans ?_ (le_max_left _ _)
      simp only [List.length_nil] at h
      omega
    · rw [h]
      simp only [List.length_nil, Nat.cast_zero]
      exact le_max_right
        (((debtorsOf es).length : ℤ) + ((creditorsOf es).length : ℤ) - 1)
        (0 : ℤ)

/-! ### C7: the ledger's participants are exactly the distinct payers -/

theorem mem_map_insertionSort (le : α → α → Bool) (f : α → β) (l : List α)
    (x : β) : x ∈ (insertionSort le l).map f ↔ x ∈ l.map f :=
  ((insertionSort_perm le l).map f).mem_iff

theorem mem_addPerson_keys (l : List (String × ℚ × Nat)) (q : String) (a : ℚ)
    (p : String) :
    p ∈ (addPerson l q a).map Prod.fst ↔ p ∈ l.map Prod.fst ∨ p = q := by
  induction l with
  | nil => simp [addPerson]
  | cons x t ih =>
      obtain ⟨r, v, k⟩ := x
      by_cases hr : r = q
      · subst hr
        by_cases hp : p = r <;> simp [addPerson, hp]
      · simp only [addPerson, hr, if_false]
        by_cases hp : p = r <;> simp [hp, ih] <;> tauto

theorem mem_peopleData_keys_foldl (es : List Expense) :
    ∀ (acc : List (String × ℚ × Nat)) (p : String),
      p ∈ ((es.foldl (fun acc e => addPerson acc e.paid_by e.amount)
          acc).map Prod.fst) ↔
        p ∈ acc.map Prod.fst ∨ ∃ e ∈ es, e.paid_by = p := by
  induction es with
  | nil => intro acc p; simp
  | cons e t ih =>
      intro acc p
      simp only [List.foldl_cons]
      rw [ih]
      rw [mem_addPerson_keys]
      constructor
      · rintro ((h | h) | h)
        · exact Or.inl h
        · exact Or.inr ⟨e, List.mem_cons_self e t, h.symm⟩
        · rcases h with ⟨e', he', hp⟩
          exact Or.inr ⟨e', List.mem_cons_of_mem e he', hp⟩
      · rintro (h | ⟨e', he', hp⟩)
        · exact Or.inl (Or.inl h)
        · rcases List.mem_cons.1 he' with rfl | he''
          · exact Or.inl (Or.inr hp.symm)
          · exact Or.inr ⟨e', he'', hp⟩

theorem mem_peopleData_keys (es : List Expense) (p : String) :
    p ∈ (peopleData es).map Prod.fst ↔ ∃ e ∈ es, e.paid_by = p := by
  have h := mem_peopleData_keys_foldl es [] p
  simpa [peopleData] using h

/-- C7: for every snapshot, the set of names in the `GetBalances` output
and the set of names in the `GetPeople` output are both exactly the set of
distinct payers of the current expenses; a name with no expense appears in
neither. -/
theorem participants_exact (es : List Expense) (p : String) :
    (p ∈ (calculateBalances es).map (fun b => b.person) ↔
      p ∈ uniquePeople es) ∧
    (p ∈ (getAllPeople es).map (fun r => r.name) ↔ p ∈ uniquePeople es) ∧
    (p ∈ uniquePeople es ↔ ∃ e ∈ es, e.paid_by = p) := by
  refine ⟨?_, ?_, mem_uniquePeople es p⟩
  · unfold calculateBalances
    rw [mem_map_insertionSort, List.map_map]
    have hcomp : ((fun b : BalanceResponse => b.person) ∘
        (fun pv : String × ℚ =>
          ({ person := pv.1
             balance := |pv.2|
             status :=
               if (1 : ℚ)/100 < pv.2 then "gets"
               else if pv.2 < -((1 : ℚ)/100) then "owes"
               else "even" } : BalanceResponse))) = Prod.fst := rfl
    rw [hcomp, cib_keys]
  · unfold getAllPeople
    rw [mem_map_insertionSort, List.map_map]
    have hcomp : ((fun r : PersonResponse => r.name) ∘
        (fun t : String × ℚ × Nat =>
          ({ name := t.1
             total_paid := t.2.1
             total_expenses := t.2.2
             balance := lookupD (calculateIndividualBalances es) t.1 0 } :
            PersonResponse))) = Prod.fst := rfl
    rw [hcomp, mem_peopleData_keys, mem_uniquePeople]

/-! ### Store lemmas -/

theorem getExpenseById_some {s : Store} {i : Nat} {e : Expense}
    (h : getExpenseById s i = some e) : e ∈ s.expenses ∧ e.id = i := by
  refine ⟨List.mem_of_find?_eq_some h, ?_⟩
  have := List.find?_some h
  simpa using this

theorem getExpenseById_none {s : Store} {i : Nat} :
    getExpenseById s i = none ↔ ∀ e ∈ s.expenses, e.id ≠ i := by
  unfold getExpenseById
  rw [List.find?_eq_none]
  simp

theorem applyOp_next_id_le (s : Store) (o : StoreOp) :
    s.next_id ≤ (applyOp s o).next_id := by
  cases o with
  | add e => simp [applyOp, addExpense]
  | del i =>
      cases h : getExpenseById s i <;>
        simp [applyOp, deleteExpense, h]

theorem runOps_next_id_le : ∀ (ops : List StoreOp) (s : Store),
    s.next_id ≤ (runOps s ops).next_id := by
  intro ops
  induction ops with
  | nil => intro s; exact le_refl _
  | cons o t ih =>
      intro s
      exact le_trans (applyOp_next_id_le s o) (ih (applyOp s o))

theorem applyOp_inv (s : Store) (o : StoreOp)
    (h : ∀ e ∈ s.expenses, e.id < s.next_id) :
    ∀ e ∈ (applyOp s o).expenses, e.id < (applyOp s o).next_id := by
  cases o with
  | add a =>
      intro e he
      simp only [applyOp, addExpense, List.mem_append,
        List.mem_singleton] at he
      rcases he with he | rfl
      · exact lt_trans (h e he) (Nat.lt_succ_self _)
      · exact Nat.lt_succ_self _
  | del i =>
      cases hf : getExpenseById s i with
      | none =>
          intro e he
          simp only [applyOp, deleteExpense, hf] at he ⊢
          exact h e he
      | some ex =>
          intro e he
          simp only [applyOp, deleteExpense, hf] at he ⊢
          exact h e (s.expenses.mem_of_mem_erase he)

theorem applyOp_nodup (s : Store) (o : StoreOp)
    (hinv : ∀ e ∈ s.expenses, e.id < s.next_id)
    (hnd : (s.expenses.map (fun e => e.id)).Nodup) :
    ((applyOp s o).expenses.map (fun e => e.id)).Nodup := by
  cases o with
  | add a =>
      have hnot : s.next_id ∉ s.expenses.map (fun e => e.id) := by
        intro hmem
        rcases List.mem_map.1 hmem with ⟨e, he, hid⟩
        exact absurd hid (Nat.ne_of_lt (hinv e he))
      simp only [applyOp, addExpense, List.map_append, List.map_cons,
        List.map_nil]
      rw [List.nodup_append]
      refine ⟨hnd, List.nodup_singleton _, ?_⟩
      intro a' ha' hb
      simp only [List.mem_singleton] at hb
      subst hb
      exact hnot ha'
  | del i =>
      cases hf : getExpenseById s i with
      | none => simpa [applyOp, deleteExpense, hf] using hnd
      | some ex =>
          simp only [applyOp, deleteExpense, hf]
          exact ((s.expenses.erase_sublist ex).map (fun e => e.id)).nodup hnd

theorem runOps_inv : ∀ (ops : List StoreOp) (s : Store),
    (∀ e ∈ s.expenses, e.id < s.next_id) →
    ∀ e ∈ (runOps s ops).expenses, e.id < (runOps s ops).next_id := by
  intro ops
  induction ops with
  | nil => intro s h; exact h
  | cons o t ih =>
      intro s h
      exact ih (applyOp s o) (applyOp_inv s o h)

theorem runOps_nodup : ∀ (ops : List StoreOp) (s : Store),
    (∀ e ∈ s.expenses, e.id < s.next_id) →
    (s.expenses.map (fun e => e.id)).Nodup →
    ((runOps s ops).expenses.map (fun e => e.id)).Nodup := by
  intro ops
  induction ops with
  | nil => intro s _ hnd; exact hnd
  | cons o t ih =>
      intro s hinv hnd
      exact ih (applyOp s o) (applyOp_inv s o hinv)
        (applyOp_nodup s o hinv hnd)

theorem assignedIds_ge : ∀ (ops : List StoreOp) (s : Store),
    ∀ a ∈ assignedIds s ops, s.next_id ≤ a := by
  intro ops
  induction ops with
  | nil => intro s a ha; simp [assignedIds] at ha
  | cons o t ih =>
      intro s a ha
      cases o with
      | add e =>
          rcases List.mem_cons.1 ha with rfl | ha'
          · exact le_refl _
          · exact le_trans (applyOp_next_id_le s (.add e))
              (ih (applyOp s (.add e)) a ha')
      | del i =>
          exact le_trans (applyOp_next_id_le s (.del i))
            (ih (applyOp s (.del i)) a ha)

theorem assignedIds_sorted : ∀ (ops : List StoreOp) (s : Store),
    List.Sorted (· < ·) (assignedIds s ops) := by
  intro ops
  induction ops with
  | nil => intro s; simp [assignedIds]
  | cons o t ih =>
      intro s
      cases o with
      | add e =>
          rw [show assignedIds s (.add e :: t) =
            s.next_id :: assignedIds (applyOp s (.add e)) t from rfl]
          rw [List.sorted_cons]
          refine ⟨?_, ih (applyOp s (.add e))⟩
          intro b hb
          have h1 := assignedIds_ge t (applyOp s (.add e)) b hb
          have h2 : (applyOp s (.add e)).next_id = s.next_id + 1 := rfl
          omega
      | del i => exact ih (applyOp s (.del i))

theorem deletedIds_lt : ∀ (ops : List StoreOp) (s : Store),
    (∀ e ∈ s.expenses, e.id < s.next_id) →
    ∀ d ∈ deletedIds s ops, d < (runOps s ops).next_id := by
  intro ops
  induction ops with
  | nil => intro s _ d hd; simp [deletedIds] at hd
  | cons o t ih =>
      intro s hinv d hd
      cases o with
      | add e => exact ih (applyOp s (.add e)) (applyOp_inv s _ hinv) d hd
      | del i =>
          rw [show deletedIds s (.del i :: t) =
            (if (getExpenseById s i).isSome then [i] else []) ++
              deletedIds (applyOp s (.del i)) t from rfl] at hd
          rcases List.mem_append.1 hd with hd' | hd'
          · cases hf : getExpenseById s i with
            | none => rw [hf] at hd'; simp at hd'
            | some ex =>
                rw [hf] at hd'
                simp only [Option.isSome_some, if_pos] at hd'
                have hdi : d = i := List.mem_singleton.1 hd'
                obtain ⟨hmem, hid⟩ := getExpenseById_some hf
                have h1 : d < s.next_id := by
                  rw [hdi, ← hid]
                  exact hinv ex hmem
                have h2 : s.next_id ≤ (runOps s (.del i :: t)).next_id := by
                  exact runOps_next_id_le _ s
                omega
          · exact ih (applyOp s (.del i)) (applyOp_inv s _ hinv) d hd'

/-! ### C9: ids are distinct, monotonically assigned, never reused -/

/-- C9: starting from any store whose stored ids are pairwise distinct and
all below `next_id` (as in the freshly initialised service), every sequence
of `add_expense` / `delete_expense` operations keeps the stored ids
pairwise distinct, assigns ids in strictly increasing order — each `add`
receives an id strictly greater than every id assigned before it and no
smaller than the current `next_id` — and never reassigns the id of a
deleted expense: any id deleted during a prefix of the sequence is strictly
below every id assigned in the remainder. -/
theorem store_id_invariants (s : Store) (ops : List StoreOp)
    (hinv : ∀ e ∈ s.expenses, e.id < s.next_id)
    (hnd : (s.expenses.map (fun e => e.id)).Nodup) :
    ((runOps s ops).expenses.map (fun e => e.id)).Nodup ∧
    List.Sorted (· < ·) (assignedIds s ops) ∧
    (∀ a ∈ assignedIds s ops, s.next_id ≤ a) ∧
    (∀ ops₁ ops₂, ops = ops₁ ++ ops₂ →
      ∀ d ∈ deletedIds s ops₁,
        ∀ a ∈ assignedIds (runOps s ops₁) ops₂, d < a) := by
  refine ⟨runOps_nodup ops s hinv hnd, assignedIds_sorted ops s,
    assignedIds_ge ops s, ?_⟩
  intro ops₁ ops₂ _ d hd a ha
  have h1 : d < (runOps s ops₁).next_id := deletedIds_lt ops₁ s hinv d hd
  have h2 : (runOps s ops₁).next_id ≤ a := assignedIds_ge ops₂ _ a ha
  omega

/-- Witness for `store_id_invariants`: from the empty store, add two
expenses, delete the first, add another. -/
theorem store_id_invariants_witness :
    ((runOps ⟨[], 1⟩ [StoreOp.add ⟨600, "Dinner", "Shantanu"⟩,
        StoreOp.add ⟨450, "Groceries", "Sanket"⟩, StoreOp.del 1,
        StoreOp.add ⟨300, "Petrol", "Om"⟩]).expenses.map
      (fun e => e.id)).Nodup ∧
    List.Sorted (· < ·) (assignedIds ⟨[], 1⟩
      [StoreOp.add ⟨600, "Dinner", "Shantanu"⟩,
        StoreOp.add ⟨450, "Groceries", "Sanket"⟩, StoreOp.del 1,
        StoreOp.add ⟨300, "Petrol", "Om"⟩]) ∧
    (∀ a ∈ assignedIds ⟨[], 1⟩
        [StoreOp.add ⟨600, "Dinner", "Shantanu"⟩,
          StoreOp.add ⟨450, "Groceries", "Sanket"⟩, StoreOp.del 1,
          StoreOp.add ⟨300, "Petrol", "Om"⟩],
      (1 : Nat) ≤ a) ∧
    (∀ ops₁ ops₂,
      [StoreOp.add ⟨600, "Dinner", "Shantanu"⟩,
        StoreOp.add ⟨450, "Groceries", "Sanket"⟩, StoreOp.del 1,
        StoreOp.add ⟨300, "Petrol", "Om"⟩] = ops₁ ++ ops₂ →
      ∀ d ∈ deletedIds ⟨[], 1⟩ ops₁,
        ∀ a ∈ assignedIds (runOps ⟨[], 1⟩ ops₁) ops₂, d < a) :=
  store_id_invariants ⟨[], 1⟩ _ (by simp) (by simp)

/-! ### C10: update/delete on a missing id raise and change nothing -/

/-- C10: `update_expense` and `delete_expense` raise (`KeyError`) exactly
when no stored expense carries the requested id, and a raising call leaves
the stored expense list unchanged. -/
theorem missing_id_raises (s : Store) (i : Nat) (u : ExpenseUpdate) :
    ((∃ m, (updateExpense s i u).1 = Except.error m) ↔
      ∀ e ∈ s.expenses, e.id ≠ i) ∧
    ((∃ m, (updateExpense s i u).1 = Except.error m) →
      (updateExpense s i u).2 = s) ∧
    ((∃ m, (deleteExpense s i).1 = Except.error m) ↔
      ∀ e ∈ s.expenses, e.id ≠ i) ∧
    ((∃ m, (deleteExpense s i).1 = Except.error m) →
      (deleteExpense s i).2 = s) := by
  cases hf : getExpenseById s i with
  | none =>
      have hall : ∀ e ∈ s.expenses, e.id ≠ i := getExpenseById_none.1 hf
      refine ⟨⟨fun _ => hall, fun _ => ?_⟩, fun _ => ?_,
        ⟨fun _ => hall, fun _ => ?_⟩, fun _ => ?_⟩
      · simp only [updateExpense, hf]
        exact ⟨_, rfl⟩
      · simp only [updateExpense, hf]
      · simp only [deleteExpense, hf]
        exact ⟨_, rfl⟩
      · simp only [deleteExpense, hf]
  | some ex =>
      obtain ⟨hmem, hid⟩ := getExpenseById_some hf
      have hex : ¬ ∀ e ∈ s.expenses, e.id ≠ i := fun hall => hall ex hmem hid
      constructor
      · constructor
        · intro ⟨m, hm⟩
          simp [updateExpense, hf] at hm
        · intro hall
          exact absurd hall hex
      · refine ⟨fun ⟨m, hm⟩ => ?_, ?_⟩
        · simp [updateExpense, hf] at hm
        · constructor
          · constructor
            · intro ⟨m, hm⟩
              simp [deleteExpense, hf] at hm
            · intro hall
              exact absurd hall hex
          · intro ⟨m, hm⟩
            simp [deleteExpense, hf] at hm

/-- Witness for `missing_id_raises` at a one-expense store and the missing
id `99`: the call raises and the store is unchanged. -/
theorem missing_id_raises_witness :
    ((∃ m, (updateExpense ⟨[⟨1, 600, "Dinner", "Shantanu"⟩], 2⟩ 99
        ⟨none, none, none⟩).1 = Except.error m) ↔
      ∀ e ∈ (⟨[⟨1, 600, "Dinner", "Shantanu"⟩], 2⟩ : Store).expenses,
        e.id ≠ 99) ∧
    ((∃ m, (updateExpense ⟨[⟨1, 600, "Dinner", "Shantanu"⟩], 2⟩ 99
        ⟨none, none, none⟩).1 = Except.error m) →
      (updateExpense ⟨[⟨1, 600, "Dinner", "Shantanu"⟩], 2⟩ 99
        ⟨none, none, none⟩).2 = ⟨[⟨1, 600, "Dinner", "Shantanu"⟩], 2⟩) ∧
    ((∃ m, (deleteExpense ⟨[⟨1, 600, "Dinner", "Shantanu"⟩], 2⟩ 99).1 =
        Except.error m) ↔
      ∀ e ∈ (⟨[⟨1, 600, "Dinner", "Shantanu"⟩], 2⟩ : Store).expenses,
        e.id ≠ 99) ∧
    ((∃ m, (deleteExpense ⟨[⟨1, 600, "Dinner", "Shantanu"⟩], 2⟩ 99).1 =
        Except.error m) →
      (deleteExpense ⟨[⟨1, 600, "Dinner", "Shantanu"⟩], 2⟩ 99).2 =
        ⟨[⟨1, 600, "Dinner", "Shantanu"⟩], 2⟩) :=
  missing_id_raises ⟨[⟨1, 600, "Dinner", "Shantanu"⟩], 2⟩ 99 ⟨none, none, none⟩

end ExpenseSplit
